import Mathlib

/-!
Shallow embedding of `github.com/alcortesm/ring` (src/ring.go), a bounded
circular buffer that drops the oldest element when inserting at capacity.

Modelling choices:
* The Go struct `Ring` holds `buf []interface{}`, `len int`, `head int`.
  Elements are modelled generically: a slot holds `Option α`, where `none`
  is Go's `nil` (the value `make([]interface{}, cap)` pre-fills slots with,
  and the value returned on the not-found paths).
* `len` and `head` are `Nat`: in Go both start at 0 and every update keeps
  them non-negative (`len--` only runs behind a `len == 0` guard, and
  `head` is always reduced `% cap`), so `Nat` represents every state the
  Go code can reach; the spec's lower bounds `0 ≤ count`, `0 ≤ head` hold
  by type.
* Go methods mutate the pointer receiver; here each operation returns its
  result together with the receiver's state after the call.
* `cap(r.buf)` equals `r.buf.length`: the slice is created with
  `make([]interface{}, cap)` (length = capacity) and is never resized.
* `New` takes the capacity as `Int`, matching Go's signed `int` argument
  and its `cap < 1` validation; the error carries the rejected value just
  as `fmt.Errorf("ring capacity must be > 0, got %d", cap)` does.
-/

namespace ring

/-- The `Ring` struct of src/ring.go (the `sync.Mutex` field has no
sequential content and is not part of the state). -/
structure Ring (α : Type) where
  buf : List (Option α)
  len : Nat
  head : Nat
  deriving DecidableEq, Repr

namespace Ring

variable {α : Type}

/-- Go expression `cap(r.buf)`: the fixed storage size. -/
def capacity (r : Ring α) : Nat := r.buf.length

/-- Go function `New(cap int) (*Ring, error)`: rejects capacities below 1, otherwise
allocates a zeroed ring with `cap` empty (nil) slots. -/
def New (α : Type) (cap : Int) : Except String (Ring α) :=
  if cap < 1 then
    Except.error ("ring capacity must be > 0, got " ++ toString cap)
  else
    Except.ok { buf := List.replicate cap.toNat none, len := 0, head := 0 }

/-- Go method `tail()`: the index where the next element will be inserted. -/
def tail (r : Ring α) : Nat := (r.head + r.len) % r.capacity

/-- Go method `extract()` (the unexported one, called with the lock held):
returns `(nil, false)` on an empty ring, otherwise the element at `head`,
advancing `head` modulo the capacity and decrementing `len`. -/
def extract (r : Ring α) : (Option α × Bool) × Ring α :=
  if r.len = 0 then ((none, false), r)
  else ((r.buf.getD r.head none, true),
        { r with head := (r.head + 1) % r.capacity, len := r.len - 1 })

/-- Go method `Extract()`: the exported wrapper; apart from taking the lock
it just calls `extract`. -/
def Extract (r : Ring α) : (Option α × Bool) × Ring α := r.extract

/-- Go method `Insert(v)`: if full, first drops the oldest element via the
internal `extract` (result discarded), then writes `v` at the tail slot of
the resulting state and increments `len`. -/
def Insert (r : Ring α) (v : α) : Ring α :=
  let r1 := if r.len = r.capacity then (r.extract).2 else r
  { r1 with buf := r1.buf.set r1.tail (some v), len := r1.len + 1 }

/-- Go method `Peek()`: `(nil, false)` on an empty ring, otherwise the
element at `head`; the receiver is not mutated. -/
def Peek (r : Ring α) : (Option α × Bool) × Ring α :=
  if r.len = 0 then ((none, false), r)
  else ((r.buf.getD r.head none, true), r)

/-- Go method `Len()`: the number of stored elements; no mutation. -/
def Len (r : Ring α) : Nat × Ring α := (r.len, r)

/-- The state invariant maintained by every operation: positive capacity,
`len` within capacity, `head` a valid index. -/
def Inv (r : Ring α) : Prop :=
  0 < r.buf.length ∧ r.len ≤ r.buf.length ∧ r.head < r.buf.length

instance (r : Ring α) : Decidable (Inv r) := by
  unfold Inv; infer_instance

/-- The live window: the `len` slots starting at `head`, wrapping modulo
the capacity, oldest first. -/
def liveList (r : Ring α) : List (Option α) :=
  (List.range r.len).map (fun i => r.buf.getD ((r.head + i) % r.capacity) none)

/-- Folding a whole list of insertions. -/
def insertAll (r : Ring α) (vs : List α) : Ring α := vs.foldl Insert r

/-- Performing `n` successive `Extract` calls, collecting the results. -/
def extractN (r : Ring α) : Nat → List (Option α × Bool) × Ring α
  | 0 => ([], r)
  | n + 1 =>
      let p := r.Extract
      let q := extractN p.2 n
      (p.1 :: q.1, q.2)

/-- A public operation, for reachability statements. -/
inductive Op (α : Type) where
  | insert : α → Op α
  | extract : Op α
  | peek : Op α
  | length : Op α

/-- The state after one public operation. -/
def applyOp (r : Ring α) : Op α → Ring α
  | Op.insert v => r.Insert v
  | Op.extract => (r.Extract).2
  | Op.peek => (r.Peek).2
  | Op.length => (r.Len).2

/-- The state after a sequence of public operations. -/
def runOps (r : Ring α) (ops : List (Op α)) : Ring α := ops.foldl applyOp r

theorem liveList_length (r : Ring α) : (liveList r).length = r.len := by
  simp [liveList]

/-! Helper lemmas about `List.set`, `List.getD` and modular indices. -/

theorem getD_set_ne {β : Type} (l : List β) (i j : Nat) (a d : β) (h : i ≠ j) :
    (l.set i a).getD j d = l.getD j d := by
  simp [List.getD_eq_getElem?_getD, List.getElem?_set_ne h]

theorem getD_set_self {β : Type} (l : List β) (i : Nat) (a d : β)
    (h : i < l.length) : (l.set i a).getD i d = a := by
  simp [List.getD_eq_getElem?_getD, List.getElem?_set_eq_of_lt a h]

theorem add_mod_inj {C h i j : Nat} (hi : i < C) (hj : j < C)
    (e : (h + i) % C = (h + j) % C) : i = j := by
  have him : i ≡ j [MOD C] := Nat.ModEq.add_left_cancel' h e
  have : i % C = j % C := him
  rwa [Nat.mod_eq_of_lt hi, Nat.mod_eq_of_lt hj] at this

/-! Shape lemmas for the operations. -/

theorem extract_empty (r : Ring α) (h : r.len = 0) :
    extract r = ((none, false), r) := by
  simp [extract, h]

theorem extract_nonempty (r : Ring α) (h : r.len ≠ 0) :
    extract r = ((r.buf.getD r.head none, true),
      { r with head := (r.head + 1) % r.capacity, len := r.len - 1 }) := by
  simp [extract, h]

theorem capacity_extract (r : Ring α) : ((extract r).2).capacity = r.capacity := by
  unfold extract
  split <;> rfl

theorem extract_inv (r : Ring α) (hInv : Inv r) : Inv (extract r).2 := by
  obtain ⟨hC, hlen, hhead⟩ := hInv
  by_cases h : r.len = 0
  · rw [extract_empty r h]; exact ⟨hC, hlen, hhead⟩
  · rw [extract_nonempty r h]
    exact ⟨hC, by simp; omega, by simpa [capacity] using Nat.mod_lt _ hC⟩

theorem peek_snd (r : Ring α) : (Peek r).2 = r := by
  unfold Peek
  split <;> rfl

theorem liveList_cons (r : Ring α) (hInv : Inv r) (h : r.len ≠ 0) :
    liveList r = r.buf.getD r.head none :: liveList (extract r).2 := by
  obtain ⟨hC, hlen, hhead⟩ := hInv
  obtain ⟨n, hn⟩ : ∃ n, r.len = n + 1 :=
    ⟨r.len - 1, (Nat.succ_pred_eq_of_pos (Nat.pos_of_ne_zero h)).symm⟩
  rw [extract_nonempty r h]
  simp only [liveList, capacity, hn, Nat.add_sub_cancel]
  rw [List.range_succ_eq_map, List.map_cons, List.map_map]
  congr 1
  · rw [Nat.add_zero, Nat.mod_eq_of_lt hhead]
  · apply List.map_congr_left
    intro i _
    simp only [Function.comp]
    rw [Nat.mod_add_mod]
    have harg : r.head + 1 + i = r.head + i.succ := by omega
    rw [harg]

theorem Insert_not_full (r : Ring α) (v : α) (h : r.len ≠ r.capacity) :
    Insert r v = { r with buf := r.buf.set r.tail (some v), len := r.len + 1 } := by
  simp [Insert, h]

theorem Insert_full (r : Ring α) (v : α) (hInv : Inv r) (h : r.len = r.capacity) :
    Insert r v = { r with buf := r.buf.set r.head (some v), len := r.len,
                          head := (r.head + 1) % r.capacity } := by
  obtain ⟨hC, hlen, hhead⟩ := hInv
  have hne : r.len ≠ 0 := by simp [capacity] at h ⊢; omega
  simp only [Insert, if_pos h, extract_nonempty r hne]
  have htail : (((r.head + 1) % r.capacity) + (r.len - 1)) % r.buf.length = r.head := by
    show (((r.head + 1) % r.buf.length) + (r.len - 1)) % r.buf.length = r.head
    rw [Nat.mod_add_mod]
    have harg : r.head + 1 + (r.len - 1) = r.head + r.buf.length := by
      simp [capacity] at h; omega
    rw [harg, Nat.add_mod_right, Nat.mod_eq_of_lt hhead]
  simp only [tail, capacity] at htail ⊢
  rw [htail]
  have hlen1 : r.len - 1 + 1 = r.len := by omega
  rw [hlen1]

theorem capacity_Insert (r : Ring α) (v : α) :
    (Insert r v).capacity = r.capacity := by
  unfold Insert
  split
  · simp only [capacity, List.length_set]
    exact capacity_extract r
  · simp [capacity]

theorem Insert_inv (r : Ring α) (v : α) (hInv : Inv r) : Inv (Insert r v) := by
  obtain ⟨hC, hlen, hhead⟩ := hInv
  by_cases h : r.len = r.capacity
  · rw [Insert_full r v ⟨hC, hlen, hhead⟩ h]
    refine ⟨by simpa using hC, by simpa using hlen, ?_⟩
    simpa [capacity] using Nat.mod_lt _ hC
  · rw [Insert_not_full r v h]
    simp only [capacity] at h
    exact ⟨by simpa using hC, by simp; omega, by simpa using hhead⟩

theorem liveList_Insert_not_full (r : Ring α) (v : α) (hInv : Inv r)
    (h : r.len < r.capacity) :
    liveList (Insert r v) = liveList r ++ [some v] := by
  obtain ⟨hC, hlen, hhead⟩ := hInv
  rw [Insert_not_full r v (Nat.ne_of_lt h)]
  simp only [capacity] at h
  simp only [liveList, capacity, List.length_set, tail]
  rw [List.range_succ, List.map_append, List.map_singleton]
  congr 1
  · apply List.map_congr_left
    intro i hi
    have hi' : i < r.len := List.mem_range.mp hi
    apply getD_set_ne
    intro e
    have : r.head + r.len < r.head + r.buf.length := by omega
    have := add_mod_inj (C := r.buf.length) (h := r.head)
      (by omega : r.len < r.buf.length) (by omega : i < r.buf.length) e
    omega
  · show [(r.buf.set ((r.head + r.len) % r.buf.length) (some v)).getD
          ((r.head + r.len) % r.buf.length) none] = [some v]
    rw [getD_set_self]
    exact Nat.mod_lt _ hC

theorem liveList_Insert_full (r : Ring α) (v : α) (hInv : Inv r)
    (h : r.len = r.capacity) :
    liveList (Insert r v) = (liveList r).tail ++ [some v] := by
  obtain ⟨hC, hlen, hhead⟩ := hInv
  have hne : r.len ≠ 0 := by simp only [capacity] at h; omega
  rw [liveList_cons r ⟨hC, hlen, hhead⟩ hne, List.tail_cons]
  rw [Insert_full r v ⟨hC, hlen, hhead⟩ h, extract_nonempty r hne]
  simp only [capacity] at h
  obtain ⟨m, hm⟩ : ∃ m, r.buf.length = m + 1 := ⟨r.buf.length - 1, by omega⟩
  simp only [liveList, capacity, List.length_set, h, hm, Nat.add_sub_cancel]
  rw [List.range_succ, List.map_append, List.map_singleton]
  congr 1
  · apply List.map_congr_left
    intro i hi
    have hi' : i < m := List.mem_range.mp hi
    apply getD_set_ne
    intro e
    rw [Nat.mod_add_mod] at e
    have e' : (r.head + 0) % (m + 1) = (r.head + (1 + i)) % (m + 1) := by
      rw [Nat.add_zero, Nat.mod_eq_of_lt (by omega : r.head < m + 1)]
      have harg : r.head + 1 + i = r.head + (1 + i) := by omega
      rw [← harg]
      exact e
    have := add_mod_inj (C := m + 1) (h := r.head)
      (by omega : 0 < m + 1) (by omega : 1 + i < m + 1) e'
    omega
  · show [(r.buf.set r.head (some v)).getD
          (((r.head + 1) % (m + 1) + m) % (m + 1)) none] = [some v]
    have harg : ((r.head + 1) % (m + 1) + m) % (m + 1) = r.head := by
      rw [Nat.mod_add_mod]
      have e2 : r.head + 1 + m = r.head + (m + 1) := by omega
      rw [e2, Nat.add_mod_right, Nat.mod_eq_of_lt (by omega : r.head < m + 1)]
    rw [harg, getD_set_self]
    omega

theorem len_Insert_not_full (r : Ring α) (v : α) (h : r.len ≠ r.capacity) :
    (Insert r v).len = r.len + 1 := by
  rw [Insert_not_full r v h]

theorem head_Insert_not_full (r : Ring α) (v : α) (h : r.len ≠ r.capacity) :
    (Insert r v).head = r.head := by
  rw [Insert_not_full r v h]

theorem len_Insert_full (r : Ring α) (v : α) (hInv : Inv r)
    (h : r.len = r.capacity) : (Insert r v).len = r.capacity := by
  rw [Insert_full r v hInv h]
  exact h

theorem head_Insert_full (r : Ring α) (v : α) (hInv : Inv r)
    (h : r.len = r.capacity) : (Insert r v).head = (r.head + 1) % r.capacity := by
  rw [Insert_full r v hInv h]

theorem insertAll_cons (r : Ring α) (v : α) (vs : List α) :
    insertAll r (v :: vs) = insertAll (Insert r v) vs := rfl

/-- Inserting a batch that fits in the remaining room appends it to the
live window and evicts nothing. -/
theorem insertAll_no_evict (vs : List α) : ∀ r : Ring α, Inv r →
    r.len + vs.length ≤ r.capacity →
    liveList (insertAll r vs) = liveList r ++ vs.map some ∧
    Inv (insertAll r vs) ∧
    (insertAll r vs).len = r.len + vs.length ∧
    (insertAll r vs).capacity = r.capacity ∧
    (insertAll r vs).head = r.head := by
  induction vs with
  | nil =>
      intro r hInv _
      exact ⟨by simp [insertAll], by simpa [insertAll] using hInv, by simp [insertAll],
             by simp [insertAll], by simp [insertAll]⟩
  | cons v vs ih =>
      intro r hInv hle
      have hlt : r.len < r.capacity := by simp at hle; omega
      have hne : r.len ≠ r.capacity := Nat.ne_of_lt hlt
      have hcap1 := capacity_Insert r v
      have hlen1 := len_Insert_not_full r v hne
      obtain ⟨ih1, ih2, ih3, ih4, ih5⟩ :=
        ih (Insert r v) (Insert_inv r v hInv) (by simp at hle ⊢; omega)
      rw [insertAll_cons]
      refine ⟨?_, ih2, by simp [ih3, hlen1]; omega, by rw [ih4, hcap1], ?_⟩
      · rw [ih1, liveList_Insert_not_full r v hInv hlt]
        simp
      · rw [ih5, head_Insert_not_full r v hne]

/-- Inserting a batch into a full ring keeps it full and leaves exactly
the last `capacity` values of the combined old-then-new sequence. -/
theorem insertAll_full (vs : List α) : ∀ r : Ring α, Inv r →
    r.len = r.capacity →
    liveList (insertAll r vs) = (liveList r ++ vs.map some).drop vs.length ∧
    Inv (insertAll r vs) ∧
    (insertAll r vs).len = r.capacity ∧
    (insertAll r vs).capacity = r.capacity := by
  induction vs with
  | nil =>
      intro r hInv hfull
      exact ⟨by simp [insertAll], by simpa [insertAll] using hInv,
             by simpa [insertAll] using hfull, by simp [insertAll]⟩
  | cons v vs ih =>
      intro r hInv hfull
      have hcap1 := capacity_Insert r v
      have hlen1 := len_Insert_full r v hInv hfull
      have hfull1 : (Insert r v).len = (Insert r v).capacity := by
        rw [hlen1, hcap1]
      obtain ⟨ih1, ih2, ih3, ih4⟩ := ih (Insert r v) (Insert_inv r v hInv) hfull1
      rw [insertAll_cons]
      refine ⟨?_, ih2, by rw [ih3, hcap1], by rw [ih4, hcap1]⟩
      rw [ih1, liveList_Insert_full r v hInv hfull]
      obtain ⟨a, t, hat⟩ : ∃ a t, liveList r = a :: t := by
        obtain ⟨hC, hlen, hhead⟩ := hInv
        have : liveList r ≠ [] := by
          intro e
          have hh := liveList_length r
          rw [e] at hh
          simp at hh
          simp [capacity] at hfull
          omega
        exact ⟨(liveList r).head this, (liveList r).tail, (List.head_cons_tail _ this).symm⟩
      rw [hat]
      simp [List.drop_succ_cons]

/-- Draining a ring with `len` extractions returns exactly the live
window, each element with the found flag set, and empties the ring. -/
theorem extractN_drain (n : Nat) : ∀ r : Ring α, Inv r → r.len = n →
    (extractN r n).1 = (liveList r).map (fun o => (o, true)) ∧
    (extractN r n).2.len = 0 := by
  induction n with
  | zero =>
      intro r _ h0
      have : liveList r = [] := by
        have := liveList_length r
        rw [h0] at this
        exact List.eq_nil_of_length_eq_zero this
      exact ⟨by simp [extractN, this], by simp [extractN, h0]⟩
  | succ n ih =>
      intro r hInv hlen
      have hne : r.len ≠ 0 := by omega
      have hlen' : (extract r).2.len = n := by
        rw [extract_nonempty r hne]
        simp; omega
      obtain ⟨ih1, ih2⟩ := ih (extract r).2 (extract_inv r hInv) hlen'
      have hfst : (extract r).1 = (r.buf.getD r.head none, true) := by
        rw [extract_nonempty r hne]
      constructor
      · show (r.Extract).1 :: (extractN (r.Extract).2 n).1 = _
        rw [liveList_cons r hInv hne]
        simp only [Extract, hfst, ih1, List.map_cons]
      · exact ih2

theorem New_ok (α : Type) (cap : Int) (r : Ring α) (h : New α cap = Except.ok r) :
    Inv r ∧ r.len = 0 ∧ r.head = 0 ∧ r.capacity = cap.toNat ∧ 1 ≤ cap := by
  unfold New at h
  split at h
  · cases h
  · rename_i hge
    cases h
    have h1 : (1 : Int) ≤ cap := by omega
    have h2 : 1 ≤ cap.toNat := by omega
    refine ⟨⟨by simp; omega, by simp, by simp; omega⟩, rfl, rfl, by simp [capacity], h1⟩

theorem applyOp_inv (r : Ring α) (op : Op α) (hInv : Inv r) :
    Inv (applyOp r op) := by
  cases op with
  | insert v => exact Insert_inv r v hInv
  | extract => exact extract_inv r hInv
  | peek => rw [show applyOp r Op.peek = (Peek r).2 from rfl, peek_snd]; exact hInv
  | length => exact hInv

theorem runOps_inv (ops : List (Op α)) : ∀ r : Ring α, Inv r →
    Inv (runOps r ops) := by
  induction ops with
  | nil => intro r hInv; exact hInv
  | cons op ops ih =>
      intro r hInv
      exact ih (applyOp r op) (applyOp_inv r op hInv)

/-! Claim theorems. -/

/-- Claim C1: FIFO ordering. Starting from a ring with no live elements,
inserting at most `capacity` values triggers no eviction, and repeated
`Extract` calls return exactly those values, in insertion order, each
with the found flag true. -/
theorem C1_fifo_order (r : Ring α) (vs : List α) (hInv : Inv r)
    (hempty : r.len = 0) (hle : vs.length ≤ r.capacity) :
    (extractN (insertAll r vs) vs.length).1
      = vs.map (fun v => (some v, true)) := by
  have hlive0 : liveList r = [] :=
    List.eq_nil_of_length_eq_zero (by rw [liveList_length, hempty])
  obtain ⟨h1, h2, h3, h4, h5⟩ := insertAll_no_evict vs r hInv (by omega)
  obtain ⟨hd1, hd2⟩ := extractN_drain vs.length (insertAll r vs) h2 (by omega)
  rw [hd1, h1, hlive0, List.nil_append, List.map_map]
  rfl

/-- Witness for C1: an empty ring of capacity 3 takes 7, 8, 9 and gives
them back in order. -/
theorem C1_fifo_order_witness :
    Inv (Ring.mk (List.replicate 3 none) 0 0 : Ring Nat) ∧
    (Ring.mk (List.replicate 3 none) 0 0 : Ring Nat).len = 0 ∧
    ([7, 8, 9] : List Nat).length
      ≤ (Ring.mk (List.replicate 3 none) 0 0 : Ring Nat).capacity ∧
    (extractN (insertAll (Ring.mk (List.replicate 3 none) 0 0 : Ring Nat)
        [7, 8, 9]) 3).1
      = [(some 7, true), (some 8, true), (some 9, true)] := by
  refine ⟨by decide, rfl, by decide, ?_⟩
  have h := C1_fifo_order (Ring.mk (List.replicate 3 none) 0 0 : Ring Nat)
    [7, 8, 9] (by decide) rfl (by decide)
  exact h.trans (by decide)

/-- Claim C2: eviction. Inserting into a full ring keeps the count at the
capacity and turns the live window into the old window without its oldest
element plus the new value; inserting a batch `vs` into a full ring with
no extraction leaves exactly the last `capacity` values of the
old-live-then-inserted sequence, oldest to newest, still at full count. -/
theorem C2_eviction (r : Ring α) (v : α) (vs : List α) (hInv : Inv r)
    (hfull : r.len = r.capacity) :
    ((Len (Insert r v)).1 = r.capacity ∧
      liveList (Insert r v) = (liveList r).tail ++ [some v]) ∧
    (liveList (insertAll r vs) = (liveList r ++ vs.map some).drop vs.length ∧
      (Len (insertAll r vs)).1 = r.capacity) := by
  obtain ⟨h1, _, h3, _⟩ := insertAll_full vs r hInv hfull
  exact ⟨⟨len_Insert_full r v hInv hfull, liveList_Insert_full r v hInv hfull⟩,
         h1, h3⟩

/-- Witness for C2: the full ring holding 1, 2 (capacity 2); one insert of
5 evicts 1; the batch 5, 6, 7 leaves 6, 7. -/
theorem C2_eviction_witness :
    Inv (Ring.mk [some 1, some 2] 2 0 : Ring Nat) ∧
    (Ring.mk [some 1, some 2] 2 0 : Ring Nat).len
      = (Ring.mk [some 1, some 2] 2 0 : Ring Nat).capacity ∧
    ((Len (Insert (Ring.mk [some 1, some 2] 2 0 : Ring Nat) 5)).1 = 2 ∧
      liveList (Insert (Ring.mk [some 1, some 2] 2 0 : Ring Nat) 5)
        = [some 2, some 5]) ∧
    (liveList (insertAll (Ring.mk [some 1, some 2] 2 0 : Ring Nat) [5, 6, 7])
        = [some 6, some 7] ∧
      (Len (insertAll (Ring.mk [some 1, some 2] 2 0 : Ring Nat) [5, 6, 7])).1
        = 2) := by
  have h := C2_eviction (Ring.mk [some 1, some 2] 2 0 : Ring Nat) 5 [5, 6, 7]
    (by decide) (by decide)
  refine ⟨by decide, by decide, ⟨h.1.1.trans (by decide), h.1.2.trans (by decide)⟩,
          h.2.1.trans (by decide), h.2.2.trans (by decide)⟩

/-- Claim C3: construction. Capacities below one are rejected with the
invalid-capacity error carrying the rejected value; capacities of at
least one give a ring with zero count, zero head, freshly allocated
storage whose length is the requested capacity, zero reported length,
and not-found answers from both `Peek` and `Extract`. -/
theorem C3_construction (α : Type) (cap : Int) :
    (cap < 1 →
      New α cap
        = Except.error ("ring capacity must be > 0, got " ++ toString cap)) ∧
    (1 ≤ cap → ∃ r : Ring α,
      New α cap = Except.ok r ∧ r.len = 0 ∧ r.head = 0 ∧
      r.buf = List.replicate cap.toNat none ∧ (cap.toNat : Int) = cap ∧
      (Len r).1 = 0 ∧ (Peek r).1 = (none, false) ∧
      (Extract r).1 = (none, false)) := by
  constructor
  · intro h
    simp [New, h]
  · intro h
    refine ⟨⟨List.replicate cap.toNat none, 0, 0⟩, ?_, rfl, rfl, rfl,
            by omega, rfl, rfl, rfl⟩
    unfold New
    rw [if_neg (by omega)]

/-- Witness for C3 at the rejected capacity 0 and the accepted capacity 5. -/
theorem C3_construction_witness :
    ((0 : Int) < 1 ∧
      New Nat 0 = Except.error "ring capacity must be > 0, got 0") ∧
    ((1 : Int) ≤ 5 ∧ ∃ r : Ring Nat,
      New Nat 5 = Except.ok r ∧ r.len = 0 ∧ r.head = 0 ∧
      r.buf = List.replicate (5 : Int).toNat none ∧ (((5 : Int).toNat) : Int) = 5 ∧
      (Len r).1 = 0 ∧ (Peek r).1 = (none, false) ∧
      (Extract r).1 = (none, false)) := by
  constructor
  · refine ⟨by decide, ?_⟩
    have h := (C3_construction Nat 0).1 (by decide)
    have e : ("ring capacity must be > 0, got " ++ toString (0 : Int))
        = "ring capacity must be > 0, got 0" := rfl
    rw [e] at h
    exact h
  · exact ⟨by decide, (C3_construction Nat 5).2 (by decide)⟩

/-- Claim C4: index invariants. From any successful construction, after
any sequence of public operations the count stays within the capacity
and the head stays a valid index (`len` and `head` are `Nat`, so the
lower bounds hold by type), and the live window is exactly the `count`
slots starting at `head`, wrapping modulo the capacity. -/
theorem C4_index_invariants (α : Type) (cap : Int) (r0 : Ring α)
    (hnew : New α cap = Except.ok r0) (ops : List (Op α)) :
    (runOps r0 ops).len ≤ (runOps r0 ops).capacity ∧
    (runOps r0 ops).head < (runOps r0 ops).capacity ∧
    (liveList (runOps r0 ops)).length = (runOps r0 ops).len ∧
    liveList (runOps r0 ops) = (List.range (runOps r0 ops).len).map
      (fun i => (runOps r0 ops).buf.getD
        (((runOps r0 ops).head + i) % (runOps r0 ops).capacity) none) := by
  obtain ⟨hInv, _⟩ := New_ok α cap r0 hnew
  obtain ⟨_, h2, h3⟩ := runOps_inv ops r0 hInv
  exact ⟨h2, h3, liveList_length _, rfl⟩

/-- Witness for C4: a ring of capacity 2 driven through inserts past
capacity, an extract, a peek and a length query. -/
theorem C4_index_invariants_witness :
    New Nat 2 = Except.ok (Ring.mk [none, none] 0 0) ∧
    ((runOps (Ring.mk [none, none] 0 0 : Ring Nat)
        [Op.insert 1, Op.insert 2, Op.insert 3, Op.extract, Op.peek,
         Op.length]).len ≤
      (runOps (Ring.mk [none, none] 0 0 : Ring Nat)
        [Op.insert 1, Op.insert 2, Op.insert 3, Op.extract, Op.peek,
         Op.length]).capacity ∧
      (runOps (Ring.mk [none, none] 0 0 : Ring Nat)
        [Op.insert 1, Op.insert 2, Op.insert 3, Op.extract, Op.peek,
         Op.length]).head <
      (runOps (Ring.mk [none, none] 0 0 : Ring Nat)
        [Op.insert 1, Op.insert 2, Op.insert 3, Op.extract, Op.peek,
         Op.length]).capacity) := by
  refine ⟨rfl, ?_⟩
  have h := C4_index_invariants Nat 2 (Ring.mk [none, none] 0 0) rfl
    [Op.insert 1, Op.insert 2, Op.insert 3, Op.extract, Op.peek, Op.length]
  exact ⟨h.1, h.2.1⟩

/-- Claim C5: net effect of insert. On a full ring, `Insert` keeps the
count at the capacity, advances the head by one modulo the capacity, and
is literally the internal extract-and-discard followed by a write at the
tail of the intermediate state; on a non-full ring it increments the
count by one and leaves the head unchanged. -/
theorem C5_insert_net_effect (r : Ring α) (v : α) (hInv : Inv r) :
    (r.len = r.capacity →
      (Insert r v).len = r.capacity ∧
      (Insert r v).head = (r.head + 1) % r.capacity ∧
      Insert r v = { (extract r).2 with
        buf := ((extract r).2).buf.set ((extract r).2).tail (some v),
        len := ((extract r).2).len + 1 }) ∧
    (r.len ≠ r.capacity →
      (Insert r v).len = r.len + 1 ∧ (Insert r v).head = r.head) := by
  constructor
  · intro h
    refine ⟨len_Insert_full r v hInv h, head_Insert_full r v hInv h, ?_⟩
    simp [Insert, h]
  · intro h
    exact ⟨len_Insert_not_full r v h, head_Insert_not_full r v h⟩

/-- Witness for C5: the full case on a ring holding 1, 2 (capacity 2) and
the non-full case on a ring holding only 1 (capacity 2). -/
theorem C5_insert_net_effect_witness :
    (Inv (Ring.mk [some 1, some 2] 2 0 : Ring Nat) ∧
      (Ring.mk [some 1, some 2] 2 0 : Ring Nat).len
        = (Ring.mk [some 1, some 2] 2 0 : Ring Nat).capacity ∧
      (Insert (Ring.mk [some 1, some 2] 2 0 : Ring Nat) 9).len = 2 ∧
      (Insert (Ring.mk [some 1, some 2] 2 0 : Ring Nat) 9).head = 1) ∧
    (Inv (Ring.mk [some 1, none] 1 0 : Ring Nat) ∧
      (Ring.mk [some 1, none] 1 0 : Ring Nat).len
        ≠ (Ring.mk [some 1, none] 1 0 : Ring Nat).capacity ∧
      (Insert (Ring.mk [some 1, none] 1 0 : Ring Nat) 9).len = 2 ∧
      (Insert (Ring.mk [some 1, none] 1 0 : Ring Nat) 9).head = 0) := by
  have hF := (C5_insert_net_effect (Ring.mk [some 1, some 2] 2 0 : Ring Nat) 9
    (by decide)).1 (by decide)
  have hN := (C5_insert_net_effect (Ring.mk [some 1, none] 1 0 : Ring Nat) 9
    (by decide)).2 (by decide)
  exact ⟨⟨by decide, by decide, hF.1.trans (by decide), hF.2.1.trans (by decide)⟩,
         ⟨by decide, by decide, hN.1.trans (by decide), hN.2.trans (by decide)⟩⟩

/-- Claim C6: empty-ring boundary. On a ring with zero count, `Extract`
and `Peek` both return not-found with no value, leave the state exactly
as it was, and the reported length is unchanged. -/
theorem C6_empty_boundary (r : Ring α) (h : r.len = 0) :
    Extract r = ((none, false), r) ∧ Peek r = ((none, false), r) ∧
    (Len ((Extract r).2)).1 = (Len r).1 ∧ (Len ((Peek r).2)).1 = (Len r).1 := by
  have he : Extract r = ((none, false), r) := by simp [Extract, extract, h]
  have hp : Peek r = ((none, false), r) := by simp [Peek, h]
  exact ⟨he, hp, by rw [he], by rw [hp]⟩

/-- Witness for C6: an empty ring of capacity 2 with a stale value left
in storage still answers not-found and is unchanged. -/
theorem C6_empty_boundary_witness :
    (Ring.mk [some 3, none] 0 1 : Ring Nat).len = 0 ∧
    Extract (Ring.mk [some 3, none] 0 1 : Ring Nat)
      = ((none, false), Ring.mk [some 3, none] 0 1) ∧
    Peek (Ring.mk [some 3, none] 0 1 : Ring Nat)
      = ((none, false), Ring.mk [some 3, none] 0 1) := by
  have h := C6_empty_boundary (Ring.mk [some 3, none] 0 1 : Ring Nat) rfl
  exact ⟨rfl, h.1, h.2.1⟩

/-- Claim C7: peek is idempotent and pure. `Peek` never changes the
state, so two consecutive calls with nothing in between return the same
pair, and the reported length is unaffected. -/
theorem C7_peek_idempotent (r : Ring α) :
    (Peek r).2 = r ∧ (Peek ((Peek r).2)).1 = (Peek r).1 ∧
    (Len ((Peek r).2)).1 = (Len r).1 := by
  have h := peek_snd r
  exact ⟨h, by rw [h], by rw [h]⟩

/-- Claim C9: storage frame. `Insert` writes exactly the tail slot
`(head + len) % capacity` of the pre-state and no other slot (stated via
`List.set`), while `Extract` and `Peek` leave the storage untouched — in
particular an extracted element's value stays in its old slot until a
later insert overwrites it. -/
theorem C9_storage_frame (r : Ring α) (v : α) (hInv : Inv r) :
    (Insert r v).buf = r.buf.set ((r.head + r.len) % r.capacity) (some v) ∧
    ((Extract r).2).buf = r.buf ∧ ((Peek r).2).buf = r.buf := by
  obtain ⟨hC, hlen, hhead⟩ := hInv
  refine ⟨?_, ?_, ?_⟩
  · by_cases h : r.len = r.capacity
    · rw [Insert_full r v ⟨hC, hlen, hhead⟩ h]
      show r.buf.set r.head (some v) = _
      have e : (r.head + r.len) % r.capacity = r.head := by
        simp only [capacity] at h ⊢
        rw [h, Nat.add_mod_right, Nat.mod_eq_of_lt hhead]
      rw [e]
    · rw [Insert_not_full r v h]
      rfl
  · unfold Extract extract
    split <;> rfl
  · unfold Peek
    split <;> rfl

/-- Witness for C9: a ring of capacity 3 holding one element; the insert
lands in slot 1 and extraction leaves the storage as is. -/
theorem C9_storage_frame_witness :
    Inv (Ring.mk [some 5, none, none] 1 0 : Ring Nat) ∧
    (Insert (Ring.mk [some 5, none, none] 1 0 : Ring Nat) 7).buf
      = [some 5, some 7, none] ∧
    ((Extract (Ring.mk [some 5, none, none] 1 0 : Ring Nat)).2).buf
      = [some 5, none, none] ∧
    ((Peek (Ring.mk [some 5, none, none] 1 0 : Ring Nat)).2).buf
      = [some 5, none, none] := by
  have h := C9_storage_frame (Ring.mk [some 5, none, none] 1 0 : Ring Nat) 7
    (by decide)
  exact ⟨by decide, h.1.trans (by decide), h.2.1.trans (by decide),
         h.2.2.trans (by decide)⟩

/-- Claim C10: nil on not-found. On an empty ring the element component
of the pair returned by `Extract` and by `Peek` is exactly `none`
(modelling Go's nil), not an arbitrary value flagged as absent. -/
theorem C10_nil_on_not_found (r : Ring α) (h : r.len = 0) :
    ((Extract r).1).1 = none ∧ ((Peek r).1).1 = none := by
  simp [Extract, extract, Peek, h]

/-- Witness for C10: an empty ring of capacity 1 with a stale stored
value still yields the nil element on both reads. -/
theorem C10_nil_on_not_found_witness :
    (Ring.mk [some 9] 0 0 : Ring Nat).len = 0 ∧
    ((Extract (Ring.mk [some 9] 0 0 : Ring Nat)).1).1 = none ∧
    ((Peek (Ring.mk [some 9] 0 0 : Ring Nat)).1).1 = none := by
  have h := C10_nil_on_not_found (Ring.mk [some 9] 0 0 : Ring Nat) rfl
  exact ⟨rfl, h.1, h.2⟩

end Ring

end ring
